import Mathlib

/-!
Verification of the `chot` test-fixture pipeline (file-operations module,
its duplicate in the monolithic script, the content generator and the CLI).

Strings are modelled as lists of characters (`Str`), matching Python's
strings as sequences of code points.  File-system effects are modelled by
returning the ordered list of `(path, content)` writes performed.

Functions that scan a string by jumping forward a computed number of
characters are written with an explicit fuel argument (initialised to the
string length plus one) so that they are structurally recursive and
evaluate on concrete inputs; a congruence lemma shows the fuel is
irrelevant as long as it is large enough.
-/

namespace Chot

/-- Strings are modelled as lists of characters. -/
abbrev Str := List Char

/-- Characters of a Lean string literal. -/
def strOf (s : String) : Str := s.data

/-- Decimal digit character for `n % 10`. -/
def digitChar (n : Nat) : Char := Char.ofNat (48 + n % 10)

/-- Fuelled decimal rendering; the fuel bounds the number of digits. -/
def natStrAux : Nat → Nat → Str
  | 0, _ => []
  | fuel + 1, n =>
    if n < 10 then [digitChar n] else natStrAux fuel (n / 10) ++ [digitChar (n % 10)]

/-- Decimal rendering of a natural number, embedding Python's `str(i)` as
used by the f-strings of the source. -/
def natStr (n : Nat) : Str := natStrAux (n + 1) n

theorem natStrAux_congr : ∀ {n : Nat} (f g : Nat), n < f → n < g → natStrAux f n = natStrAux g n := by
  intro n
  induction n using Nat.strong_induction_on with
  | _ n ih =>
    intro f g hf hg
    match f, g with
    | f' + 1, g' + 1 =>
      simp only [natStrAux]
      split
      · rfl
      · next h =>
        have h10 : n / 10 < n := Nat.div_lt_self (by omega) (by omega)
        rw [ih (n / 10) h10 f' g' (by omega) (by omega)]

/-- Unfolding equation for `natStr`. -/
theorem natStr_eq (n : Nat) :
    natStr n = if n < 10 then [digitChar n] else natStr (n / 10) ++ [digitChar (n % 10)] := by
  show natStrAux (n + 1) n = _
  simp only [natStrAux]
  split
  · rfl
  · next h =>
    rw [natStrAux_congr n (n / 10 + 1) (by omega) (Nat.lt_succ_self _)]
    rfl

/-- A character is a decimal digit. -/
def isDigitCh (c : Char) : Bool := 48 ≤ c.toNat && c.toNat ≤ 57

theorem toNat_digitChar (n : Nat) : (digitChar n).toNat = 48 + n % 10 := by
  have hlt : n % 10 < 10 := Nat.mod_lt _ (by omega)
  have hvalid : Nat.isValidChar (48 + n % 10) := Or.inl (by omega)
  simp [digitChar, Char.ofNat, hvalid, Char.ofNatAux, Char.toNat, UInt32.toNat]

theorem isDigitCh_digitChar (n : Nat) : isDigitCh (digitChar n) = true := by
  have hlt : n % 10 < 10 := Nat.mod_lt _ (by omega)
  simp [isDigitCh, toNat_digitChar]
  omega

theorem natStr_ne_nil (n : Nat) : natStr n ≠ [] := by
  rw [natStr_eq]
  split <;> simp

theorem mem_natStr_isDigitCh (n : Nat) : ∀ c ∈ natStr n, isDigitCh c = true := by
  induction n using Nat.strong_induction_on with
  | _ n ih =>
    rw [natStr_eq]
    split
    · intro c hc
      simp at hc
      subst hc
      exact isDigitCh_digitChar n
    · intro c hc
      simp at hc
      rcases hc with hc | hc
      · exact ih (n / 10) (Nat.div_lt_self (by omega) (by omega)) c hc
      · subst hc
        exact isDigitCh_digitChar (n % 10)

/-- Left-to-right decimal value of a digit list (parser used only to prove
that decimal rendering is injective). -/
def natVal (s : Str) : Nat := s.foldl (fun a c => 10 * a + (c.toNat - 48)) 0

theorem natVal_append_aux (s : Str) (a : Nat) :
    s.foldl (fun a c => 10 * a + (c.toNat - 48)) a =
      a * 10 ^ s.length + natVal s := by
  induction s generalizing a with
  | nil => simp [natVal]
  | cons c t ih =>
    simp only [List.foldl_cons, natVal, List.length_cons]
    rw [ih, ih (10 * 0 + (c.toNat - 48))]
    ring

theorem natVal_natStr (n : Nat) : natVal (natStr n) = n := by
  induction n using Nat.strong_induction_on with
  | _ n ih =>
    rw [natStr_eq]
    split
    · next h =>
      simp [natVal, toNat_digitChar]
      omega
    · next h =>
      have := ih (n / 10) (Nat.div_lt_self (by omega) (by omega))
      simp only [natVal, List.foldl_append] at *
      rw [show (List.foldl (fun a c => 10 * a + (c.toNat - 48)) 0 (natStr (n / 10))) = n / 10 from this]
      simp [toNat_digitChar]
      omega

theorem natStr_injective {m n : Nat} (h : natStr m = natStr n) : m = n := by
  have := natVal_natStr m
  rw [h, natVal_natStr] at this
  omega

/-- Decimal rendering of a Python integer (sizes may be negative). -/
def intStr (i : Int) : Str := if i < 0 then '-' :: natStr i.natAbs else natStr i.natAbs

/-- The START sentinel `<!--UNIQUE_MARKER_{i}_START-->` from `create_edit_patterns`. -/
def startDelim (i : Nat) : Str := strOf "<!--UNIQUE_MARKER_" ++ natStr i ++ strOf "_START-->"

/-- The END sentinel `<!--UNIQUE_MARKER_{i}_END-->` from `create_edit_patterns`. -/
def endDelim (i : Nat) : Str := strOf "<!--UNIQUE_MARKER_" ++ natStr i ++ strOf "_END-->"

/-- The `original` string of marker `i` in `create_edit_patterns`. -/
def originalText (i : Nat) : Str :=
  startDelim i ++ strOf "\nThis is original text " ++ natStr i ++ strOf "\n" ++ endDelim i

/-- The `replacement` string of marker `i` in `create_edit_patterns`. -/
def replacementText (i : Nat) : Str :=
  startDelim i ++ strOf "\nThis is replacement text " ++ natStr i ++ strOf "\n" ++ endDelim i

/-- One `{original, replacement}` entry of a pattern. -/
structure Replacement where
  original : Str
  replacement : Str
deriving DecidableEq

/-- A pattern dictionary `{name, replacements}` from `create_edit_patterns`. -/
structure EditPattern where
  name : Str
  replacements : List Replacement
deriving DecidableEq

/-- The pattern built for edit count `n` by `create_edit_patterns`. -/
def createEditPattern (n : Nat) : EditPattern :=
  { name := strOf "pattern_" ++ natStr n ++ strOf "_edits"
    replacements := (List.range n).map (fun i => ⟨originalText i, replacementText i⟩) }

/-- `create_edit_patterns`: one pattern per requested edit count. -/
def createEditPatterns (numEdits : List Nat) : List EditPattern :=
  numEdits.map createEditPattern

/-- A test case dictionary recorded by `inject_patterns_into_files`. -/
structure TestCase where
  filename : Str
  fileSizeKb : Int
  numEdits : Nat
  patternName : Str
deriving DecidableEq

/-- Python slice splice `s[:pos] + ins + s[pos:]`. -/
def insertAt (s : Str) (pos : Nat) (ins : Str) : Str := s.take pos ++ ins ++ s.drop pos

/-- The block actually spliced in for one replacement: `"\n\n" + original + "\n\n"`. -/
def blockOf (o : Str) : Str := strOf "\n\n" ++ o ++ strOf "\n\n"

/-- The insertion loop of `inject_patterns_into_files`: `i` is the
`enumerate` counter, each insertion is applied to the already-modified
content at offset `(i+1)*chunk`. -/
def injectLoop (chunk : Nat) : Nat → List Str → Str → Str
  | _, [], s => s
  | i, o :: rest, s => injectLoop chunk (i + 1) rest (insertAt s ((i + 1) * chunk) (blockOf o))

/-- Content modification performed by `inject_patterns_into_files` for one
(file, pattern) pair: `chunk_size = len(content) // (len(replacements) + 1)`
followed by the sequential insertions. -/
def injectContent (content : Str) (origs : List Str) : Str :=
  injectLoop (content.length / (origs.length + 1)) 0 origs content

/-- `os.path.basename` for the forward-slash paths this program builds. -/
def basename (p : Str) : Str := p.foldl (fun acc c => if c = '/' then [] else acc ++ [c]) []

/-- Fuelled Python `str.replace` (all non-overlapping occurrences, left to
right); fuel bounds the scan length. -/
def replaceStrAux (pat rep : Str) : Nat → Str → Str
  | 0, s => s
  | _, [] => []
  | fuel + 1, c :: t =>
    if pat.isPrefixOf (c :: t) && !(List.isEmpty pat) then
      rep ++ replaceStrAux pat rep fuel (t.drop (pat.length - 1))
    else
      c :: replaceStrAux pat rep fuel t

/-- Python `s.replace(pat, rep)`. -/
def replaceStr (pat rep s : Str) : Str := replaceStrAux pat rep (s.length + 1) s

/-- `os.path.join` for the relative directory names this program uses. -/
def pathJoin (a b : Str) : Str := a ++ strOf "/" ++ b

/-- Output filename built by `inject_patterns_into_files`:
`os.path.join(output_dir, basename(filename).replace(".md","") + "_" + name + ".md")`. -/
def patternFilename (outputDir filename patName : Str) : Str :=
  pathJoin outputDir
    (replaceStr (strOf ".md") [] (basename filename) ++ strOf "_" ++ patName ++ strOf ".md")

/-- Body of the inner loop of `inject_patterns_into_files` for one
(file, pattern) pair: the TestCase record appended to `test_cases` and the
`(path, content)` write performed. -/
def injectOne (content : Str) (filename : Str) (size : Int) (pat : EditPattern)
    (outputDir : Str) : TestCase × (Str × Str) :=
  let pfName := patternFilename outputDir filename pat.name
  let modified := injectContent content (pat.replacements.map (·.original))
  (⟨pfName, size, pat.replacements.length, pat.name⟩, (pfName, modified))

/-- One manifest table row of `test_cases.md`. -/
def manifestRow (tc : TestCase) : Str :=
  strOf "| " ++ basename tc.filename ++ strOf " | " ++ intStr tc.fileSizeKb ++
    strOf " | " ++ natStr tc.numEdits ++ strOf " | " ++ tc.patternName ++ strOf " |\n"

/-- The manifest document written at the end of `inject_patterns_into_files`. -/
def manifestContent (cases : List TestCase) : Str :=
  strOf "# Test Cases for GitHub Copilot Response Testing\n\n" ++
    strOf "| Filename | File Size (KB) | Number of Edits | Pattern Name |\n" ++
    strOf "|----------|---------------|----------------|-------------|\n" ++
    (cases.map manifestRow).flatten

/-- `inject_patterns_into_files`: files outer, patterns inner; returns the
test-case records and the ordered writes (the injected files, then the
manifest).  `read` models the filesystem contents of the input files. -/
def injectPatternsIntoFiles (files : List (Str × Int)) (patterns : List EditPattern)
    (read : Str → Str) (outputDir : Str) : List TestCase × List (Str × Str) :=
  let pairs := files.flatMap
    (fun fs => patterns.map (fun p => injectOne (read fs.1) fs.1 fs.2 p outputDir))
  let cases := pairs.map Prod.fst
  (cases, pairs.map Prod.snd ++ [(pathJoin outputDir (strOf "test_cases.md"), manifestContent cases)])

/-- Number of (possibly overlapping) verbatim occurrences of `needle` in a
string; for the delimiter needles used here occurrences cannot overlap. -/
def countOcc (needle : Str) : Str → Nat
  | [] => 0
  | c :: s => (if needle.isPrefixOf (c :: s) then 1 else 0) + countOcc needle s

/-- Total occurrences of the pattern's START delimiters (ids `0..n-1`). -/
def countStarts (n : Nat) (s : Str) : Nat :=
  ((List.range n).map (fun i => countOcc (startDelim i) s)).sum

/-- Total occurrences of the pattern's END delimiters (ids `0..n-1`). -/
def countEnds (n : Nat) (s : Str) : Nat :=
  ((List.range n).map (fun i => countOcc (endDelim i) s)).sum

/-- Substring test (Python `in`). -/
def containsSub (needle : Str) : Str → Bool
  | [] => List.isEmpty needle
  | c :: t => needle.isPrefixOf (c :: t) || containsSub needle t

/-- Modelled from the spec: §4.3 step 2 worded as an indexed left-to-right
splice — for each position `i` (0-based, declared order) insert
`"\n\n" + original_i + "\n\n"` at offset `(i+1)*chunkSize` of the
already-modified content, with `chunkSize = floor(len(content)/(n+1))`. -/
def spliceSpec (content : Str) (origs : List Str) : Str :=
  let chunk := content.length / (origs.length + 1)
  (List.range origs.length).foldl
    (fun s i => insertAt s ((i + 1) * chunk) (blockOf (origs.getD i []))) content

/-- Maximal digit prefix of a string and the remaining suffix (the greedy
`(\d+)` capture of the marker regex). -/
def takeDigits : Str → Str × Str
  | [] => ([], [])
  | c :: t =>
    if isDigitCh c then
      let p := takeDigits t
      (c :: p.1, p.2)
    else ([], c :: t)

/-- Fuelled embedding of
`re.findall(r"<!--UNIQUE_MARKER_(\d+)_START-->", content)` followed by
`int(...)` on each capture: leftmost non-overlapping matches, scanning
resumes after each full match. -/
def findMarkersAux : Nat → Str → List Nat
  | 0, _ => []
  | _, [] => []
  | fuel + 1, c :: t =>
    if (strOf "<!--UNIQUE_MARKER_").isPrefixOf (c :: t) then
      let rest := (c :: t).drop 18
      let ds := (takeDigits rest).1
      let rest' := (takeDigits rest).2
      if !(List.isEmpty ds) && (strOf "_START-->").isPrefixOf rest' then
        natVal ds :: findMarkersAux fuel (rest'.drop 9)
      else
        findMarkersAux fuel t
    else findMarkersAux fuel t

/-- The marker ids found in a string, in text order. -/
def findMarkers (s : Str) : List Nat := findMarkersAux (s.length + 1) s

/-- Python `sorted` on a list of ints: extensionally any correct ascending
sort of naturals (equal keys are identical, so stability cannot be
observed); insertion sort is used so that it evaluates in the kernel. -/
def sortNat (l : List Nat) : List Nat := l.insertionSort (· ≤ ·)

/-- Fuelled `range(0, len(l), step)` slicing `l[i : i + step]`: consecutive
groups of size `step` (last group may be smaller).  The fuel bounds the
number of groups; `step = 0` raises in Python and is never used here. -/
def chunkListAux : Nat → Nat → List Nat → List (List Nat)
  | 0, _, _ => []
  | _, _, [] => []
  | fuel + 1, step, l => l.take step :: chunkListAux fuel step (l.drop step)

/-- The batch groups `markers[i : i + max_edits_per_batch]`. -/
def chunkList (step : Nat) (l : List Nat) : List (List Nat) :=
  chunkListAux (l.length + 1) step l

/-- A batched test case dictionary from `create_batched_test_files`. -/
structure BatchedTestCase where
  filename : Str
  fileSizeKb : Int
  numEdits : Nat
  patternName : Str
  originalTestCase : Str
  batchMarkers : List Nat
deriving DecidableEq

/-- Index of the first occurrence of the literal `pat` in `s`. -/
def firstOcc (pat : Str) : Str → Option Nat
  | [] => if List.isEmpty pat then some 0 else none
  | c :: t => if pat.isPrefixOf (c :: t) then some 0 else (firstOcc pat t).map (· + 1)

/-- Fuelled embedding of `re.sub(sp + ".*?" + ep, "", s, flags=DOTALL)` for
literal `sp` and `ep`: leftmost matches, non-greedy (shortest) middle, all
non-overlapping occurrences removed. -/
def reSubAux (sp ep : Str) : Nat → Str → Str
  | 0, s => s
  | _, [] => []
  | fuel + 1, c :: t =>
    if sp.isPrefixOf (c :: t) && !(List.isEmpty sp) then
      match firstOcc ep ((c :: t).drop sp.length) with
      | some k => reSubAux sp ep fuel (((c :: t).drop sp.length).drop (k + ep.length))
      | none => c :: reSubAux sp ep fuel t
    else c :: reSubAux sp ep fuel t

/-- `re.sub(sp + ".*?" + ep, "", s, flags=DOTALL)`. -/
def reSub (sp ep s : Str) : Str := reSubAux sp ep (s.length + 1) s

/-- Marker removal of the file-operations module
(`chot_tests/file_operations.py` line 190): pattern
`\n\n<!--UNIQUE_MARKER_{m}_START-->.*?<!--UNIQUE_MARKER_{m}_END-->\n\n`. -/
def removeMarkerModule (m : Nat) (s : Str) : Str :=
  reSub (strOf "\n\n" ++ startDelim m) (endDelim m ++ strOf "\n\n") s

/-- Marker removal of the monolithic script (`copilot_response_tester.py`
line 241): pattern
`<!--UNIQUE_MARKER_{m}_START-->.*?<!--UNIQUE_MARKER_{m}_END-->`
without the surrounding blank-line separators. -/
def removeMarkerMono (m : Nat) (s : Str) : Str :=
  reSub (startDelim m) (endDelim m) s

/-- Batch filename `{output_dir}/{base}_batch{k}.md`. -/
def batchFilename (outputDir tcFilename : Str) (k : Nat) : Str :=
  pathJoin outputDir
    (replaceStr (strOf ".md") [] (basename tcFilename) ++ strOf "_batch" ++ natStr k ++ strOf ".md")

/-- `create_batched_test_files`, parameterised by the per-marker removal
function (the only point where the two source copies differ).  `content`
models the text read from `test_case["filename"]`.  Returns the result
list (the untouched TestCase on the pass-through path, else the batch
records) and the `(path, content)` writes performed. -/
def splitWith (remove : Nat → Str → Str) (tc : TestCase) (content : Str)
    (maxPerBatch : Nat) (outputDir : Str) :
    List (TestCase ⊕ BatchedTestCase) × List (Str × Str) :=
  let markers := sortNat (findMarkers content)
  if markers.length ≤ maxPerBatch then ([Sum.inl tc], [])
  else
    let batches := (chunkList maxPerBatch markers).enum.map (fun g =>
      let fname := batchFilename outputDir tc.filename (g.1 + 1)
      let removed := markers.filter (fun m => !(g.2.contains m))
      let bcontent := removed.foldl (fun acc m => remove m acc) content
      ((⟨fname, tc.fileSizeKb, g.2.length,
          tc.patternName ++ strOf "_batch" ++ natStr (g.1 + 1),
          tc.filename, g.2⟩ : BatchedTestCase), (fname, bcontent)))
    (batches.map (fun b => Sum.inr b.1), batches.map Prod.snd)

/-- `create_batched_test_files` of `chot_tests/file_operations.py`. -/
def createBatchedTestFiles (tc : TestCase) (content : Str) (maxPerBatch : Nat)
    (outputDir : Str) : List (TestCase ⊕ BatchedTestCase) × List (Str × Str) :=
  splitWith removeMarkerModule tc content maxPerBatch outputDir

/-- `create_batched_test_files` of `copilot_response_tester.py`. -/
def createBatchedTestFilesMono (tc : TestCase) (content : Str) (maxPerBatch : Nat)
    (outputDir : Str) : List (TestCase ⊕ BatchedTestCase) × List (Str × Str) :=
  splitWith removeMarkerMono tc content maxPerBatch outputDir

/-- Modelled from the spec: the reconstruction operation of §8.8 — remove
every inserted block by locating each `\n\n<START>...<END>\n\n` span
(non-greedy across the payload), for ids `0..n-1` in order. -/
def stripInsertedBlocks (n : Nat) (s : Str) : Str :=
  (List.range n).foldl (fun acc i => removeMarkerModule i acc) s

/-!
The content generator (`chot_tests/content_generator.py`, duplicated in the
monolithic script).  The process-wide random source is modelled as an
oracle: a stream of natural-number draws consumed front to back (an
exhausted stream yields 0).  `random.randint(a, b)` reduces a draw into
`[a, b]`; `random.choices(pop, k=n)` consumes `n` draws used as indices
into the population, so every sequence of in-range outcomes of the real
generator corresponds to some stream.
-/

/-- One draw from the oracle stream. -/
def draw : List Nat → Nat × List Nat
  | [] => (0, [])
  | x :: r => (x, r)

/-- `random.randint(a, b)`. -/
def randint (a b : Nat) (r : List Nat) : Nat × List Nat :=
  let p := draw r
  (a + p.1 % (b - a + 1), p.2)

/-- `random.choices(pop, kprime)` joined back into a string. -/
def choicesStr (pop : Str) : Nat → List Nat → Str × List Nat
  | 0, r => ([], r)
  | k + 1, r =>
    let p := draw r
    let q := choicesStr pop k p.2
    (pop.getD (p.1 % pop.length) 'a' :: q.1, q.2)

/-- `string.ascii_lowercase`. -/
def asciiLowercase : Str := strOf "abcdefghijklmnopqrstuvwxyz"

/-- `string.ascii_letters`. -/
def asciiLetters : Str :=
  strOf "abcdefghijklmnopqrstuvwxyzABCDEFGHIJKLMNOPQRSTUVWXYZ"

/-- `sep.join(parts)`. -/
def joinSep (sep : Str) : List Str → Str
  | [] => []
  | [x] => x
  | x :: y :: ys => x ++ sep ++ joinSep sep (y :: ys)

/-- The paragraph word groups: each group draws `randint(3, 10)` characters
from `ascii_lowercase + " "`. -/
def genGroupList : Nat → List Nat → List Str × List Nat
  | 0, r => ([], r)
  | n + 1, r =>
    let k := randint 3 10 r
    let g := choicesStr (asciiLowercase ++ [' ']) k.1 k.2
    let rest := genGroupList n g.2
    (g.1 :: rest.1, rest.2)

/-- One paragraph: `randint(100, 500)` target length, `length // 5` groups
joined by single spaces. -/
def genParagraph (r : List Nat) : Str × List Nat :=
  let pl := randint 100 500 r
  let gs := genGroupList (pl.1 / 5) pl.2
  (joinSep (strOf " ") gs.1, gs.2)

/-- The `randint(1, 5)` paragraphs of a section. -/
def genParagraphList : Nat → List Nat → List Str × List Nat
  | 0, r => ([], r)
  | n + 1, r =>
    let p := genParagraph r
    let rest := genParagraphList n p.2
    (p.1 :: rest.1, rest.2)

/-- The function lines of the code block: per iteration a 5-letter name
draw then an 8-letter return-value draw. -/
def genFuncList : Nat → List Nat → Str × List Nat
  | 0, r => ([], r)
  | n + 1, r =>
    let a := choicesStr asciiLowercase 5 r
    let b := choicesStr asciiLowercase 8 a.2
    let rest := genFuncList n b.2
    (strOf "def function_" ++ a.1 ++ strOf "():\n" ++ strOf "    return " ++ b.1 ++
      strOf "\n" ++ rest.1, rest.2)

/-- The five cells of one table row, each `randint(5, 10)` lowercase letters. -/
def genCellList : Nat → List Nat → List Str × List Nat
  | 0, r => ([], r)
  | n + 1, r =>
    let k := randint 5 10 r
    let c := choicesStr asciiLowercase k.1 k.2
    let rest := genCellList n c.2
    (c.1 :: rest.1, rest.2)

/-- The `randint(3, 8)` data rows of the table. -/
def genRowList : Nat → List Nat → Str × List Nat
  | 0, r => ([], r)
  | n + 1, r =>
    let cs := genCellList 5 r
    let rest := genRowList n cs.2
    (strOf "| " ++ joinSep (strOf " | ") cs.1 ++ strOf " |\n" ++ rest.1, rest.2)

/-- The fixed table header and separator rows. -/
def tableHeader : Str :=
  strOf "| " ++
    joinSep (strOf " | ")
      ((List.range 5).map (fun i => strOf "Header" ++ natStr (i + 1))) ++
    strOf " |\n" ++
  strOf "| " ++ joinSep (strOf " | ") (List.replicate 5 (strOf "---")) ++ strOf " |\n"

/-- One iteration of the generator's while loop: heading, paragraphs, code
block, table, assembled with the separators of the source. -/
def genSection (r : List Nat) : Str × List Nat :=
  let hl := randint 1 3 r
  let hk := randint 5 20 hl.2
  let hcs := choicesStr asciiLetters hk.1 hk.2
  let heading := List.replicate hl.1 '#' ++ [' '] ++ hcs.1
  let np := randint 1 5 hcs.2
  let pars := genParagraphList np.1 np.2
  let nf := randint 5 20 pars.2
  let funcs := genFuncList nf.1 nf.2
  let codeBlock := strOf "```python\n" ++ funcs.1 ++ strOf "```\n"
  let nr := randint 3 8 funcs.2
  let rows := genRowList nr.1 nr.2
  (heading ++ strOf "\n\n" ++ joinSep (strOf "\n\n") pars.1 ++ strOf "\n\n" ++
     codeBlock ++ strOf "\n" ++ tableHeader ++ rows.1 ++ strOf "\n\n", rows.2)

/-- The `while chars_generated < chars_needed` loop; every section is
non-empty so `chars_needed + 1` iterations of fuel always suffice. -/
def genLoop : Nat → Int → Int → List Nat → Str × List Nat
  | 0, _, _, r => ([], r)
  | fuel + 1, needed, generated, r =>
    if generated < needed then
      let s := genSection r
      let rest := genLoop fuel needed (generated + (s.1.length : Int)) s.2
      (s.1 ++ rest.1, rest.2)
    else ([], r)

/-- `generate_random_markdown_content(size_kb)`: assemble sections until
`chars_needed = size_kb * 1024` characters exist, then trim to exactly
that many (`[:chars_needed]`; for a non-positive size the loop body never
runs and the result is empty, as in Python). -/
def generateRandomMarkdownContent (sizeKb : Int) (r : List Nat) : Str × List Nat :=
  let charsNeeded : Int := sizeKb * 1024
  let s := genLoop (charsNeeded.toNat + 1) charsNeeded 0 r
  (s.1.take charsNeeded.toNat, s.2)

/-- The path `f"{base_dir}/test_file_{size}kb.md"`. -/
def testFilePath (baseDir : Str) (size : Int) : Str :=
  baseDir ++ strOf "/test_file_" ++ intStr size ++ strOf "kb.md"

/-- The loop of `create_test_files`: one generated file per requested
size, threading the random stream. -/
def createTestFilesLoop (baseDir : Str) : List Int → List Nat →
    List (Str × Int) × List (Str × Str)
  | [], _ => ([], [])
  | size :: rest, r =>
    let g := generateRandomMarkdownContent size r
    let p := createTestFilesLoop baseDir rest g.2
    ((testFilePath baseDir size, size) :: p.1, (testFilePath baseDir size, g.1) :: p.2)

/-- `create_test_files`: `os.makedirs(base_dir, exist_ok=True)` always runs
first (the Boolean records that the directory is created), then one write
per requested size; returns the `(filename, size)` records and writes. -/
def createTestFiles (sizesKb : List Int) (baseDir : Str) (r : List Nat) :
    (List (Str × Int) × List (Str × Str)) × Bool :=
  (createTestFilesLoop baseDir sizesKb r, true)

/-- Sequential filesystem semantics of a write list: each write replaces
the content at its path, so a later write overwrites an earlier one. -/
def applyWrites (ws : List (Str × Str)) : Str → Option Str :=
  ws.foldl (fun fs w => fun q => if q = w.1 then some w.2 else fs q) (fun _ => none)

/-! ### Helper lemmas -/

theorem injectLoop_eq_foldl (chunk : Nat) :
    ∀ (os : List Str) (i : Nat) (s : Str),
      injectLoop chunk i os s =
        (List.range os.length).foldl
          (fun t j => insertAt t ((i + j + 1) * chunk) (blockOf (os.getD j []))) s := by
  intro os
  induction os with
  | nil => intro i s; simp [injectLoop]
  | cons o os ih =>
    intro i s
    rw [injectLoop, List.length_cons, List.range_succ_eq_map, List.foldl_cons, List.foldl_map]
    have harg : (fun (t : Str) (j : Nat) =>
        insertAt t ((i + (j + 1) + 1) * chunk) (blockOf ((o :: os).getD (j + 1) []))) =
        (fun (t : Str) (j : Nat) =>
          insertAt t ((i + 1 + j + 1) * chunk) (blockOf (os.getD j []))) := by
      funext t j
      simp only [List.getD_cons_succ]
      ring_nf
    rw [show i + 0 + 1 = i + 1 by omega, List.getD_cons_zero, harg, ih (i + 1)]

/-- C3: for every file content and every sequence of replacement
originals, the injector's output equals the spec's sequential
left-to-right splice (chunkSize `floor(len(content)/(n+1))`, the `i`-th
insertion at offset `(i+1)*chunkSize` of the already-modified content),
and with zero replacements the output is the untouched content. -/
theorem claim_C3 (content : Str) (origs : List Str) :
    injectContent content origs = spliceSpec content origs ∧
    injectContent content [] = content := by
  constructor
  · rw [injectContent, spliceSpec, injectLoop_eq_foldl]
    simp only [Nat.zero_add]
  · rfl

/-- A concrete injected file content with markers 0 and 1 present as the
injector lays them out (`\n\n<START>..<END>\n\n` units). -/
def twoMarkerContent : Str :=
  strOf "AB" ++ blockOf (originalText 0) ++ strOf "CD" ++
    blockOf (originalText 1) ++ strOf "EF"

set_option maxRecDepth 1000000 in
/-- C5: the two `create_batched_test_files` implementations are not
extensionally equal — on a file holding markers 0 and 1 with
`max_edits_per_batch = 1` they write different batch file contents (the
monolithic script leaves the `\n\n` separators behind). -/
theorem claim_C5_counterexample :
    ¬ (createBatchedTestFiles ⟨strOf "f.md", 10, 2, strOf "pat"⟩ twoMarkerContent 1
         (strOf "batched_test_files") =
       createBatchedTestFilesMono ⟨strOf "f.md", 10, 2, strOf "pat"⟩ twoMarkerContent 1
         (strOf "batched_test_files")) := by
  decide

/-- C5 (amended): the two implementations agree on the returned record
sequences and on the batch file paths for every input; only the written
batch file contents can differ. -/
theorem claim_C5_amended (tc : TestCase) (content : Str) (maxPerBatch : Nat)
    (outputDir : Str) :
    (createBatchedTestFiles tc content maxPerBatch outputDir).1 =
      (createBatchedTestFilesMono tc content maxPerBatch outputDir).1 ∧
    (createBatchedTestFiles tc content maxPerBatch outputDir).2.map Prod.fst =
      (createBatchedTestFilesMono tc content maxPerBatch outputDir).2.map Prod.fst := by
  unfold createBatchedTestFiles createBatchedTestFilesMono splitWith
  dsimp only
  split
  · exact ⟨rfl, rfl⟩
  · constructor
    · simp only [List.map_map]
      rfl
    · simp only [List.map_map]
      rfl

set_option maxRecDepth 1000000 in
/-- C4: evaluation of both batch-removal code paths on a concrete file
holding markers 0 and 1 with `max_edits_per_batch = 1`: the module's path
removes the whole `\n\n<START>..<END>\n\n` unit, while the monolithic
script's path removes only `<START>..<END>` and leaves the two blank-line
separators (`\n\n\n\n`) behind. -/
theorem claim_C4_divergence_eval :
    (createBatchedTestFiles ⟨strOf "f.md", 10, 2, strOf "pat"⟩ twoMarkerContent 1
        (strOf "batched_test_files")).2.map Prod.snd =
      [strOf "AB" ++ blockOf (originalText 0) ++ strOf "CDEF",
       strOf "ABCD" ++ blockOf (originalText 1) ++ strOf "EF"] ∧
    (createBatchedTestFilesMono ⟨strOf "f.md", 10, 2, strOf "pat"⟩ twoMarkerContent 1
        (strOf "batched_test_files")).2.map Prod.snd =
      [strOf "AB" ++ blockOf (originalText 0) ++ strOf "CD\n\n\n\nEF",
       strOf "AB\n\n\n\nCD" ++ blockOf (originalText 1) ++ strOf "EF"] := by
  constructor
  · decide
  · decide

/-- C7: whenever the distinct marker ids found in the test case's file are
no more numerous than `max_edits_per_batch` (the extracted occurrence list
has no duplicates, so distinct count is its length), the splitter returns
exactly the input TestCase as a single-element sequence and writes no new
file; in particular a file with no markers always passes through. -/
theorem claim_C7 (tc : TestCase) (content : Str) (maxPerBatch : Nat) (outputDir : Str)
    (hnd : (findMarkers content).Nodup)
    (hk : (findMarkers content).toFinset.card ≤ maxPerBatch) :
    createBatchedTestFiles tc content maxPerBatch outputDir = ([Sum.inl tc], []) := by
  have hcard := List.toFinset_card_of_nodup hnd
  have hlen : (sortNat (findMarkers content)).length = (findMarkers content).length :=
    (List.perm_insertionSort _ _).length_eq
  unfold createBatchedTestFiles splitWith
  dsimp only
  rw [if_pos (by omega)]

/-- Witness for C7 at a concrete marker-free file. -/
theorem claim_C7_witness :
    (findMarkers (strOf "hello")).Nodup ∧
    (findMarkers (strOf "hello")).toFinset.card ≤ 3 ∧
    createBatchedTestFiles ⟨strOf "x.md", 1, 0, strOf "p"⟩ (strOf "hello") 3
        (strOf "batched_test_files") =
      ([Sum.inl ⟨strOf "x.md", 1, 0, strOf "p"⟩], []) :=
  ⟨by decide, by decide,
    claim_C7 ⟨strOf "x.md", 1, 0, strOf "p"⟩ (strOf "hello") 3 (strOf "batched_test_files")
      (by decide) (by decide)⟩

theorem createTestFilesLoop_spec (baseDir : Str) :
    ∀ (sizes : List Int) (r : List Nat),
      (createTestFilesLoop baseDir sizes r).1 =
        sizes.map (fun s => (testFilePath baseDir s, s)) ∧
      (createTestFilesLoop baseDir sizes r).2.map Prod.fst =
        sizes.map (testFilePath baseDir) := by
  intro sizes
  induction sizes with
  | nil => intro r; simp [createTestFilesLoop]
  | cons s rest ih =>
    intro r
    simp only [createTestFilesLoop, List.map_cons, List.map]
    refine ⟨?_, ?_⟩
    · rw [(ih _).1]
    · rw [(ih _).2]

/-- C8: no boundary validation exists — the Fixture Builder unconditionally
creates the base directory and performs a write for a negative size
(`sizes_kb = [-1]` yields the file `response_test_files/test_file_-1kb.md`
with empty content), contradicting "fails without creating a directory or
writing any file". -/
theorem claim_C8_counterexample :
    (createTestFiles [(-1 : Int)] (strOf "response_test_files") []).2 = true ∧
    (createTestFiles [(-1 : Int)] (strOf "response_test_files") []).1.2 =
      [(strOf "response_test_files/test_file_-1kb.md", [])] := by
  constructor
  · rfl
  · decide

/-- C8 (amended): the pipeline performs no configuration validation at all:
for every `sizes_kb` list — invalid entries included — `create_test_files`
creates the base directory and performs exactly one write per entry, at
the path determined by the entry. -/
theorem claim_C8_amended (sizesKb : List Int) (baseDir : Str) (r : List Nat) :
    (createTestFiles sizesKb baseDir r).2 = true ∧
    (createTestFiles sizesKb baseDir r).1.1 =
      sizesKb.map (fun s => (testFilePath baseDir s, s)) ∧
    (createTestFiles sizesKb baseDir r).1.2.map Prod.fst =
      sizesKb.map (testFilePath baseDir) :=
  ⟨rfl, (createTestFilesLoop_spec baseDir sizesKb r).1,
    (createTestFilesLoop_spec baseDir sizesKb r).2⟩

theorem getLast?_cons_ne_nil {α : Type} (a : α) {l : List α} (h : l ≠ []) :
    (a :: l).getLast? = l.getLast? := by
  cases l with
  | nil => exact absurd rfl h
  | cons b t => exact List.getLast?_cons_cons

theorem applyWrites_lookup :
    ∀ (ws : List (Str × Str)) (init : Str → Option Str) (p : Str),
      ws.foldl (fun fs w => fun q => if q = w.1 then some w.2 else fs q) init p =
        (match (ws.filter (fun w => decide (w.1 = p))).getLast? with
          | some w => some w.2
          | none => init p) := by
  intro ws
  induction ws with
  | nil => intro init p; rfl
  | cons w ws ih =>
    intro init p
    rw [List.foldl_cons, ih]
    by_cases hw : w.1 = p
    · rw [List.filter_cons, decide_eq_true hw, if_pos rfl]
      rcases hl : (ws.filter (fun w => decide (w.1 = p))).getLast? with _ | v
      · rw [hl, List.getLast?_eq_none_iff.mp hl]
        dsimp only
        rw [if_pos hw.symm]
        simp [List.getLast?_singleton]
      · rw [hl, getLast?_cons_ne_nil w (by intro h; rw [h] at hl; simp at hl), hl]
    · rw [List.filter_cons, decide_eq_false hw, if_neg Bool.false_ne_true]
      rcases hl : (ws.filter (fun w => decide (w.1 = p))).getLast? with _ | v
      · rw [hl]
        dsimp only
        rw [if_neg (fun h => hw h.symm)]
      · rw [hl]

/-- C10: the `i`-th record of `create_test_files` carries exactly the path
`{base_dir}/test_file_{size}kb.md` for the `i`-th requested size (so equal
sizes yield identical paths and one record per occurrence, in input
order), one write is performed per occurrence in order, and under
sequential filesystem semantics the surviving content at a path is that of
the last write to it. -/
theorem claim_C10 (sizesKb : List Int) (baseDir : Str) (r : List Nat) :
    (createTestFiles sizesKb baseDir r).1.1 =
      sizesKb.map (fun s => (testFilePath baseDir s, s)) ∧
    (createTestFiles sizesKb baseDir r).1.2.map Prod.fst =
      sizesKb.map (testFilePath baseDir) ∧
    ∀ p, applyWrites (createTestFiles sizesKb baseDir r).1.2 p =
      ((createTestFiles sizesKb baseDir r).1.2.filter
          (fun w => decide (w.1 = p))).getLast?.map Prod.snd := by
  refine ⟨(createTestFilesLoop_spec baseDir sizesKb r).1,
    (createTestFilesLoop_spec baseDir sizesKb r).2, ?_⟩
  intro p
  rw [applyWrites, applyWrites_lookup]
  cases hg : ((createTestFiles sizesKb baseDir r).1.2.filter
      (fun w => decide (w.1 = p))).getLast? with
  | none => rfl
  | some v => rfl

/-- A realisable random-draw sequence for one generator section: heading
level 1 with a 5-letter heading, one paragraph with target length 500
(100 word groups of 10 characters each), followed by minimum draws for the
rest of the section.  The pre-code-block text is then 1108 characters,
larger than the 1024-character budget of `size_kb = 1`. -/
def c9Stream : List Nat :=
  [0, 0] ++ List.replicate 5 0 ++ [0] ++ [400] ++
    (List.replicate 100 ([7] ++ List.replicate 10 0)).flatten

theorem chunkListAux_cons (fuel step : Nat) (l : List Nat) (h : l ≠ []) :
    chunkListAux (fuel + 1) step l =
      l.take step :: chunkListAux fuel step (l.drop step) := by
  cases l with
  | nil => exact absurd rfl h
  | cons a t => rfl

theorem chunkListAux_nil (fuel step : Nat) : chunkListAux fuel step [] = [] := by
  cases fuel with
  | zero => rfl
  | succ f => rfl

theorem chunkList3_of_len10 (l : List Nat) (h : l.length = 10) :
    chunkList 3 l = [l.take 3, (l.drop 3).take 3, ((l.drop 3).drop 3).take 3,
      ((l.drop 3).drop 3).drop 3] := by
  have h1 : (l.drop 3).length = 7 := by rw [List.length_drop, h]
  have h2 : ((l.drop 3).drop 3).length = 4 := by rw [List.length_drop, h1]
  have h3 : (((l.drop 3).drop 3).drop 3).length = 1 := by rw [List.length_drop, h2]
  show chunkListAux (l.length + 1) 3 l = _
  rw [h]
  rw [chunkListAux_cons 10 3 l (by intro hnil; rw [hnil] at h; simp at h)]
  rw [chunkListAux_cons 9 3 _ (by intro hnil; rw [hnil] at h1; simp at h1)]
  rw [chunkListAux_cons 8 3 _ (by intro hnil; rw [hnil] at h2; simp at h2)]
  rw [chunkListAux_cons 7 3 _ (by intro hnil; rw [hnil] at h3; simp at h3)]
  rw [List.drop_eq_nil_of_le (by omega : (((l.drop 3).drop 3).drop 3).length ≤ 3)]
  rw [List.take_of_length_le (by omega : (((l.drop 3).drop 3).drop 3).length ≤ 3)]
  rw [chunkListAux_nil]

/-- C6: on a test case whose file holds exactly ten distinct marker ids
(`max_edits_per_batch = 3`), the splitter returns exactly four batch
records whose `batchMarkers` are the four consecutive slices of the sorted
marker list with sizes 3, 3, 3, 1, whose filenames carry suffixes
`_batch1` .. `_batch4`, and whose `batchMarkers` concatenate back to the
sorted marker list — a duplicate-free permutation of the extracted
markers, so no id appears in two batches. -/
theorem claim_C6 (tc : TestCase) (content : Str) (outputDir : Str)
    (hnd : (findMarkers content).Nodup)
    (hlen : (findMarkers content).length = 10) :
    (createBatchedTestFiles tc content 3 outputDir).1 =
      [Sum.inr ⟨batchFilename outputDir tc.filename 1, tc.fileSizeKb, 3,
          tc.patternName ++ strOf "_batch" ++ natStr 1, tc.filename,
          (sortNat (findMarkers content)).take 3⟩,
       Sum.inr ⟨batchFilename outputDir tc.filename 2, tc.fileSizeKb, 3,
          tc.patternName ++ strOf "_batch" ++ natStr 2, tc.filename,
          ((sortNat (findMarkers content)).drop 3).take 3⟩,
       Sum.inr ⟨batchFilename outputDir tc.filename 3, tc.fileSizeKb, 3,
          tc.patternName ++ strOf "_batch" ++ natStr 3, tc.filename,
          (((sortNat (findMarkers content)).drop 3).drop 3).take 3⟩,
       Sum.inr ⟨batchFilename outputDir tc.filename 4, tc.fileSizeKb, 1,
          tc.patternName ++ strOf "_batch" ++ natStr 4, tc.filename,
          (((sortNat (findMarkers content)).drop 3).drop 3).drop 3⟩] ∧
    ((sortNat (findMarkers content)).take 3).length = 3 ∧
    (((sortNat (findMarkers content)).drop 3).take 3).length = 3 ∧
    ((((sortNat (findMarkers content)).drop 3).drop 3).take 3).length = 3 ∧
    ((((sortNat (findMarkers content)).drop 3).drop 3).drop 3).length = 1 ∧
    (sortNat (findMarkers content)).take 3 ++
        (((sortNat (findMarkers content)).drop 3).take 3 ++
          ((((sortNat (findMarkers content)).drop 3).drop 3).take 3 ++
            (((sortNat (findMarkers content)).drop 3).drop 3).drop 3)) =
      sortNat (findMarkers content) ∧
    (sortNat (findMarkers content)).Perm (findMarkers content) ∧
    (sortNat (findMarkers content)).Nodup := by
  have hperm : (sortNat (findMarkers content)).Perm (findMarkers content) :=
    List.perm_insertionSort _ _
  have hsl : (sortNat (findMarkers content)).length = 10 := hperm.length_eq.trans hlen
  have hd1 : ((sortNat (findMarkers content)).drop 3).length = 7 := by
    rw [List.length_drop, hsl]
  have hd2 : (((sortNat (findMarkers content)).drop 3).drop 3).length = 4 := by
    rw [List.length_drop, hd1]
  have hL1 : ((sortNat (findMarkers content)).take 3).length = 3 := by
    rw [List.length_take, hsl]; rfl
  have hL2 : (((sortNat (findMarkers content)).drop 3).take 3).length = 3 := by
    rw [List.length_take, hd1]; rfl
  have hL3 : ((((sortNat (findMarkers content)).drop 3).drop 3).take 3).length = 3 := by
    rw [List.length_take, hd2]; rfl
  have hL4 : ((((sortNat (findMarkers content)).drop 3).drop 3).drop 3).length = 1 := by
    rw [List.length_drop, hd2]
  refine ⟨?_, hL1, hL2, hL3, hL4, ?_, hperm, hperm.nodup_iff.mpr hnd⟩
  · unfold createBatchedTestFiles splitWith
    dsimp only
    rw [if_neg (by omega)]
    rw [chunkList3_of_len10 _ hsl]
    simp only [List.enum, List.enumFrom, List.map]
    rw [hL1, hL2, hL3, hL4]
  · rw [List.take_append_drop 3 (((sortNat (findMarkers content)).drop 3).drop 3),
      List.take_append_drop 3 ((sortNat (findMarkers content)).drop 3),
      List.take_append_drop 3 (sortNat (findMarkers content))]

/-- A concrete file content holding the ten marker ids 0..9. -/
def tenMarkerContent : Str := ((List.range 10).map startDelim).flatten

set_option maxRecDepth 1000000 in
/-- Witness for C6 at a concrete ten-marker file. -/
theorem claim_C6_witness :
    (findMarkers tenMarkerContent).Nodup ∧
    (findMarkers tenMarkerContent).length = 10 ∧
    ((createBatchedTestFiles ⟨strOf "t.md", 10, 10, strOf "p"⟩ tenMarkerContent 3
          (strOf "batched_test_files")).1 =
        [Sum.inr ⟨batchFilename (strOf "batched_test_files") (strOf "t.md") 1, 10, 3,
            strOf "p" ++ strOf "_batch" ++ natStr 1, strOf "t.md",
            (sortNat (findMarkers tenMarkerContent)).take 3⟩,
         Sum.inr ⟨batchFilename (strOf "batched_test_files") (strOf "t.md") 2, 10, 3,
            strOf "p" ++ strOf "_batch" ++ natStr 2, strOf "t.md",
            ((sortNat (findMarkers tenMarkerContent)).drop 3).take 3⟩,
         Sum.inr ⟨batchFilename (strOf "batched_test_files") (strOf "t.md") 3, 10, 3,
            strOf "p" ++ strOf "_batch" ++ natStr 3, strOf "t.md",
            (((sortNat (findMarkers tenMarkerContent)).drop 3).drop 3).take 3⟩,
         Sum.inr ⟨batchFilename (strOf "batched_test_files") (strOf "t.md") 4, 10, 1,
            strOf "p" ++ strOf "_batch" ++ natStr 4, strOf "t.md",
            (((sortNat (findMarkers tenMarkerContent)).drop 3).drop 3).drop 3⟩] ∧
      ((sortNat (findMarkers tenMarkerContent)).take 3).length = 3 ∧
      (((sortNat (findMarkers tenMarkerContent)).drop 3).take 3).length = 3 ∧
      ((((sortNat (findMarkers tenMarkerContent)).drop 3).drop 3).take 3).length = 3 ∧
      ((((sortNat (findMarkers tenMarkerContent)).drop 3).drop 3).drop 3).length = 1 ∧
      (sortNat (findMarkers tenMarkerContent)).take 3 ++
          (((sortNat (findMarkers tenMarkerContent)).drop 3).take 3 ++
            ((((sortNat (findMarkers tenMarkerContent)).drop 3).drop 3).take 3 ++
              (((sortNat (findMarkers tenMarkerContent)).drop 3).drop 3).drop 3)) =
        sortNat (findMarkers tenMarkerContent) ∧
      (sortNat (findMarkers tenMarkerContent)).Perm (findMarkers tenMarkerContent) ∧
      (sortNat (findMarkers tenMarkerContent)).Nodup) :=
  ⟨by decide, by decide,
    claim_C6 ⟨strOf "t.md", 10, 10, strOf "p"⟩ tenMarkerContent (strOf "batched_test_files")
      (by decide) (by decide)⟩

set_option maxRecDepth 10000000 in
set_option maxHeartbeats 4000000 in
/-- C9: for `size_kb = 1` there is a realisable random outcome on which the
generated content is trimmed before the code block, so the result contains
a heading marker but neither a fenced-code-block token nor a table
delimiter — contradicting the repository's own unit test and the claim
that `produce(sizeKb)` always contains all three. -/
theorem claim_C9_divergence_eval :
    containsSub (strOf "#") (generateRandomMarkdownContent 1 c9Stream).1 = true ∧
    containsSub (strOf "```") (generateRandomMarkdownContent 1 c9Stream).1 = false ∧
    containsSub (strOf "|") (generateRandomMarkdownContent 1 c9Stream).1 = false := by
  refine ⟨?_, ?_, ?_⟩
  · decide
  · decide
  · decide

/-! ### Occurrence counting infrastructure for C1 and C2 -/

theorem countOcc_append_left_free (nd' : Str) :
    ∀ (seg rest : Str), (∀ c ∈ seg, c ≠ '<') →
      countOcc ('<' :: nd') (seg ++ rest) = countOcc ('<' :: nd') rest := by
  intro seg
  induction seg with
  | nil => intro rest _; rfl
  | cons c t ih =>
    intro rest h
    rw [List.cons_append, countOcc]
    have hb : (('<' :: nd').isPrefixOf (c :: (t ++ rest))) = false :=
      Bool.eq_false_iff.mpr (fun ht =>
        (h c (by simp))
          ((List.cons_prefix_cons.mp (List.isPrefixOf_iff_prefix.mp ht)).1.symm))
    rw [hb]
    simp only [Bool.false_eq_true, if_false, Nat.zero_add]
    exact ih rest (fun x hx => h x (by simp [hx]))

theorem countOcc_free (nd' : Str) (s : Str) (h : ∀ c ∈ s, c ≠ '<') :
    countOcc ('<' :: nd') s = 0 := by
  have := countOcc_append_left_free nd' s [] h
  simpa using this

theorem countOcc_eq_zero_iff (nd : Str) (hnd : nd ≠ []) :
    ∀ s : Str, countOcc nd s = 0 ↔ ∀ p : Nat, ¬ (nd <+: s.drop p) := by
  intro s
  induction s with
  | nil =>
    simp only [countOcc, List.drop_nil, List.prefix_nil]
    simp [hnd]
  | cons c t ih =>
    rw [countOcc]
    constructor
    · intro h p
      cases p with
      | zero =>
        rw [List.drop_zero]
        intro hp
        rw [(List.isPrefixOf_iff_prefix).mpr hp] at h
        simp at h
      | succ q =>
        rw [List.drop_succ_cons]
        have ht : countOcc nd t = 0 := by
          by_cases hb : nd.isPrefixOf (c :: t) = true
          · rw [hb] at h; simp at h
          · rw [Bool.eq_false_iff.mpr hb] at h; simpa using h
        exact (ih.mp ht) q
    · intro h
      have h0 : ¬ (nd <+: (c :: t)) := by
        have := h 0
        rwa [List.drop_zero] at this
      have hb : nd.isPrefixOf (c :: t) = false :=
        Bool.eq_false_iff.mpr (fun ht => h0 (List.isPrefixOf_iff_prefix.mp ht))
      rw [hb]
      simp only [Bool.false_eq_true, if_false, Nat.zero_add]
      exact ih.mpr (fun q => by
        have := h (q + 1)
        rwa [List.drop_succ_cons] at this)

theorem prefix_drop_of_append_prefix {u v w : Str} (h : (u ++ v) <+: w) :
    v <+: w.drop u.length := by
  obtain ⟨t, ht⟩ := h
  rw [← ht, List.append_assoc, List.drop_left]
  exact List.prefix_append v t

theorem countOcc_append_needle_zero {u v : Str} (hv : v ≠ []) (s : Str)
    (h : countOcc v s = 0) : countOcc (u ++ v) s = 0 := by
  rw [countOcc_eq_zero_iff (u ++ v) (by simp [hv])]
  intro p hp
  have h2 := prefix_drop_of_append_prefix hp
  rw [List.drop_drop] at h2
  exact (countOcc_eq_zero_iff v hv s).mp h (p + u.length) h2

theorem digits_underscore_prefix :
    ∀ (a b x y : Str), (∀ c ∈ a, isDigitCh c = true) → (∀ c ∈ b, isDigitCh c = true) →
      ((a ++ '_' :: x) <+: (b ++ '_' :: y)) → a = b ∧ (x <+: y) := by
  intro a
  induction a with
  | nil =>
    intro b x y _ hb h
    cases b with
    | nil =>
      simp only [List.nil_append] at h
      exact ⟨rfl, (List.cons_prefix_cons.mp h).2⟩
    | cons d b' =>
      simp only [List.nil_append, List.cons_append] at h
      have h1 := (List.cons_prefix_cons.mp h).1
      have hd := hb d (by simp)
      rw [← h1] at hd
      exact absurd hd (by decide)
  | cons c a' ih =>
    intro b x y ha hb h
    cases b with
    | nil =>
      simp only [List.cons_append, List.nil_append] at h
      have h1 := (List.cons_prefix_cons.mp h).1
      have hc := ha c (by simp)
      rw [h1] at hc
      exact absurd hc (by decide)
    | cons d b' =>
      simp only [List.cons_append] at h
      obtain ⟨h1, h2⟩ := List.cons_prefix_cons.mp h
      obtain ⟨hab, hxy⟩ :=
        ih b' x y (fun q hq => ha q (by simp [hq])) (fun q hq => hb q (by simp [hq])) h2
      exact ⟨by rw [h1, hab], hxy⟩

/-! ### Delimiter shape facts -/

/-- The tail of the START sentinel after its `<`. -/
def startTail (i : Nat) : Str := strOf "!--UNIQUE_MARKER_" ++ natStr i ++ strOf "_START-->"

/-- The tail of the END sentinel after its `<`. -/
def endTail (i : Nat) : Str := strOf "!--UNIQUE_MARKER_" ++ natStr i ++ strOf "_END-->"

/-- The payload of `originalText` between the delimiters. -/
def midText (i : Nat) : Str := strOf "\nThis is original text " ++ natStr i ++ strOf "\n"

theorem startDelim_cons (i : Nat) : startDelim i = '<' :: startTail i := rfl

theorem startDelim_ne_nil (i : Nat) : startDelim i ≠ [] := by
  rw [startDelim_cons]
  simp

theorem endDelim_cons (i : Nat) : endDelim i = '<' :: endTail i := rfl

theorem originalText_decomp (i : Nat) :
    originalText i = startDelim i ++ (midText i ++ endDelim i) := by
  rw [originalText, midText]
  simp [List.append_assoc]

theorem ne_lt_of_digit {c : Char} (h : isDigitCh c = true) : c ≠ '<' := by
  intro he
  rw [he] at h
  exact absurd h (by decide)

theorem noLt_natStr (i : Nat) : ∀ c ∈ natStr i, c ≠ '<' :=
  fun c hc => ne_lt_of_digit (mem_natStr_isDigitCh i c hc)

theorem noLt_startTail (i : Nat) : ∀ c ∈ startTail i, c ≠ '<' := by
  intro c hc
  rw [startTail] at hc
  simp only [List.append_assoc, List.mem_append] at hc
  rcases hc with hc | hc | hc
  · intro he
    subst he
    revert hc
    decide
  · exact noLt_natStr i c hc
  · intro he
    subst he
    revert hc
    decide

theorem noLt_endTail (i : Nat) : ∀ c ∈ endTail i, c ≠ '<' := by
  intro c hc
  rw [endTail] at hc
  simp only [List.append_assoc, List.mem_append] at hc
  rcases hc with hc | hc | hc
  · intro he
    subst he
    revert hc
    decide
  · exact noLt_natStr i c hc
  · intro he
    subst he
    revert hc
    decide

theorem noLt_midText (i : Nat) : ∀ c ∈ midText i, c ≠ '<' := by
  intro c hc
  rw [midText] at hc
  simp only [List.append_assoc, List.mem_append] at hc
  rcases hc with hc | hc | hc
  · intro he
    subst he
    revert hc
    decide
  · exact noLt_natStr i c hc
  · intro he
    subst he
    revert hc
    decide

theorem startDelim_assoc (i : Nat) :
    startDelim i = strOf "<!--UNIQUE_MARKER_" ++ (natStr i ++ '_' :: strOf "START-->") := by
  rw [startDelim, List.append_assoc]
  rfl

theorem endDelim_assoc (i : Nat) :
    endDelim i = strOf "<!--UNIQUE_MARKER_" ++ (natStr i ++ '_' :: strOf "END-->") := by
  rw [endDelim, List.append_assoc]
  rfl

theorem startDelim_prefix_start {i j : Nat} {r : Str}
    (h : startDelim i <+: startDelim j ++ r) : i = j := by
  rw [startDelim_assoc i, startDelim_assoc j, List.append_assoc] at h
  have h2 := (List.prefix_append_right_inj _).mp h
  have h3 : (natStr i ++ '_' :: strOf "START-->") <+:
      (natStr j ++ '_' :: (strOf "START-->" ++ r)) := by
    simpa using h2
  obtain ⟨heq, _⟩ := digits_underscore_prefix _ _ _ _
    (mem_natStr_isDigitCh i) (mem_natStr_isDigitCh j) h3
  exact natStr_injective heq

theorem not_startDelim_prefix_end (i j : Nat) (r : Str) :
    ¬ (startDelim i <+: endDelim j ++ r) := by
  intro h
  rw [startDelim_assoc i, endDelim_assoc j, List.append_assoc] at h
  have h2 := (List.prefix_append_right_inj _).mp h
  have h3 : (natStr i ++ '_' :: strOf "START-->") <+:
      (natStr j ++ '_' :: (strOf "END-->" ++ r)) := by
    simpa using h2
  obtain ⟨_, habs⟩ := digits_underscore_prefix _ _ _ _
    (mem_natStr_isDigitCh i) (mem_natStr_isDigitCh j) h3
  have habs2 : ('S' :: strOf "TART-->") <+: ('E' :: (strOf "ND-->" ++ r)) := habs
  exact absurd (List.cons_prefix_cons.mp habs2).1 (by decide)

theorem not_endDelim_prefix_start (i j : Nat) (r : Str) :
    ¬ (endDelim i <+: startDelim j ++ r) := by
  intro h
  rw [endDelim_assoc i, startDelim_assoc j, List.append_assoc] at h
  have h2 := (List.prefix_append_right_inj _).mp h
  have h3 : (natStr i ++ '_' :: strOf "END-->") <+:
      (natStr j ++ '_' :: (strOf "START-->" ++ r)) := by
    simpa using h2
  obtain ⟨_, habs⟩ := digits_underscore_prefix _ _ _ _
    (mem_natStr_isDigitCh i) (mem_natStr_isDigitCh j) h3
  have habs2 : ('E' :: strOf "ND-->") <+: ('S' :: (strOf "TART-->" ++ r)) := habs
  exact absurd (List.cons_prefix_cons.mp habs2).1 (by decide)

theorem endDelim_prefix_end {i j : Nat} {r : Str}
    (h : endDelim i <+: endDelim j ++ r) : i = j := by
  rw [endDelim_assoc i, endDelim_assoc j, List.append_assoc] at h
  have h2 := (List.prefix_append_right_inj _).mp h
  have h3 : (natStr i ++ '_' :: strOf "END-->") <+:
      (natStr j ++ '_' :: (strOf "END-->" ++ r)) := by
    simpa using h2
  obtain ⟨heq, _⟩ := digits_underscore_prefix _ _ _ _
    (mem_natStr_isDigitCh i) (mem_natStr_isDigitCh j) h3
  exact natStr_injective heq

/-! ### Counting across one inserted block -/

theorem blockOf_originalText_append (j : Nat) (rest : Str) :
    blockOf (originalText j) ++ rest =
      ['\n', '\n'] ++ (startDelim j ++ (midText j ++ (endDelim j ++ (['\n', '\n'] ++ rest)))) := by
  rw [blockOf, originalText_decomp]
  simp only [List.append_assoc]
  rfl

theorem isPrefixOf_startDelim_start (i j : Nat) (r : Str) :
    (startDelim i).isPrefixOf (startDelim j ++ r) = (if i = j then true else false) := by
  by_cases h : i = j
  · subst h
    rw [if_pos rfl]
    exact List.isPrefixOf_iff_prefix.mpr (List.prefix_append _ _)
  · rw [if_neg h]
    exact Bool.eq_false_iff.mpr
      (fun ht => h (startDelim_prefix_start (List.isPrefixOf_iff_prefix.mp ht)))

theorem isPrefixOf_startDelim_end (i j : Nat) (r : Str) :
    (startDelim i).isPrefixOf (endDelim j ++ r) = false :=
  Bool.eq_false_iff.mpr
    (fun ht => not_startDelim_prefix_end i j r (List.isPrefixOf_iff_prefix.mp ht))

theorem isPrefixOf_endDelim_start (i j : Nat) (r : Str) :
    (endDelim i).isPrefixOf (startDelim j ++ r) = false :=
  Bool.eq_false_iff.mpr
    (fun ht => not_endDelim_prefix_start i j r (List.isPrefixOf_iff_prefix.mp ht))

theorem isPrefixOf_endDelim_end (i j : Nat) (r : Str) :
    (endDelim i).isPrefixOf (endDelim j ++ r) = (if i = j then true else false) := by
  by_cases h : i = j
  · subst h
    rw [if_pos rfl]
    exact List.isPrefixOf_iff_prefix.mpr (List.prefix_append _ _)
  · rw [if_neg h]
    exact Bool.eq_false_iff.mpr
      (fun ht => h (endDelim_prefix_end (List.isPrefixOf_iff_prefix.mp ht)))

theorem countOcc_start_block (i j : Nat) (rest : Str) :
    countOcc (startDelim i) (blockOf (originalText j) ++ rest) =
      (if i = j then 1 else 0) + countOcc (startDelim i) rest := by
  rw [blockOf_originalText_append]
  rw [startDelim_cons i]
  rw [countOcc_append_left_free _ _ _ (by decide)]
  rw [show startDelim j ++ (midText j ++ (endDelim j ++ (['\n', '\n'] ++ rest)))
        = '<' :: (startTail j ++ (midText j ++ (endDelim j ++ (['\n', '\n'] ++ rest)))) from rfl]
  rw [countOcc]
  rw [countOcc_append_left_free _ _ _ (noLt_startTail j)]
  rw [countOcc_append_left_free _ _ _ (noLt_midText j)]
  rw [show endDelim j ++ (['\n', '\n'] ++ rest)
        = '<' :: (endTail j ++ (['\n', '\n'] ++ rest)) from rfl]
  rw [countOcc]
  rw [countOcc_append_left_free _ _ _ (noLt_endTail j)]
  rw [countOcc_append_left_free _ _ _ (by decide)]
  have e1 : ('<' :: startTail i).isPrefixOf
      ('<' :: (startTail j ++ (midText j ++ '<' :: (endTail j ++ (['\n', '\n'] ++ rest))))) =
      (if i = j then true else false) :=
    isPrefixOf_startDelim_start i j (midText j ++ '<' :: (endTail j ++ (['\n', '\n'] ++ rest)))
  have e2 : ('<' :: startTail i).isPrefixOf ('<' :: (endTail j ++ (['\n', '\n'] ++ rest))) = false :=
    isPrefixOf_startDelim_end i j (['\n', '\n'] ++ rest)
  rw [e1, e2]
  by_cases h : i = j
  · rw [if_pos h, if_pos h]
    simp [Nat.add_comm]
  · rw [if_neg h, if_neg h]
    simp

theorem countOcc_end_block (i j : Nat) (rest : Str) :
    countOcc (endDelim i) (blockOf (originalText j) ++ rest) =
      (if i = j then 1 else 0) + countOcc (endDelim i) rest := by
  rw [blockOf_originalText_append]
  rw [endDelim_cons i]
  rw [countOcc_append_left_free _ _ _ (by decide)]
  rw [show startDelim j ++ (midText j ++ (endDelim j ++ (['\n', '\n'] ++ rest)))
        = '<' :: (startTail j ++ (midText j ++ (endDelim j ++ (['\n', '\n'] ++ rest)))) from rfl]
  rw [countOcc]
  rw [countOcc_append_left_free _ _ _ (noLt_startTail j)]
  rw [countOcc_append_left_free _ _ _ (noLt_midText j)]
  rw [show endDelim j ++ (['\n', '\n'] ++ rest)
        = '<' :: (endTail j ++ (['\n', '\n'] ++ rest)) from rfl]
  rw [countOcc]
  rw [countOcc_append_left_free _ _ _ (noLt_endTail j)]
  rw [countOcc_append_left_free _ _ _ (by decide)]
  have e1 : ('<' :: endTail i).isPrefixOf
      ('<' :: (startTail j ++ (midText j ++ '<' :: (endTail j ++ (['\n', '\n'] ++ rest))))) = false :=
    isPrefixOf_endDelim_start i j (midText j ++ '<' :: (endTail j ++ (['\n', '\n'] ++ rest)))
  have e2 : ('<' :: endTail i).isPrefixOf ('<' :: (endTail j ++ (['\n', '\n'] ++ rest))) =
      (if i = j then true else false) :=
    isPrefixOf_endDelim_end i j (['\n', '\n'] ++ rest)
  rw [e1, e2]
  by_cases h : i = j
  · rw [if_pos h, if_pos h]
    simp [Nat.add_comm]
  · rw [if_neg h, if_neg h]
    simp

/-! ### Decomposition of the injector output when no insertion lands inside
an earlier block -/

/-- The alternating pristine-segment / inserted-block decomposition of the
injector output: the gap before the next block is `chunk` minus the length
of the previous block. -/
def decompAux (chunk : Nat) : List Str → Nat → Str → Str
  | [], _, rest => rest
  | o :: os, prevB, rest =>
    rest.take (chunk - prevB) ++ blockOf o ++
      decompAux chunk os (blockOf o).length (rest.drop (chunk - prevB))

theorem injectLoop_decomp (chunk : Nat) :
    ∀ (os : List Str) (i : Nat) (done rest : Str) (prevB : Nat),
      done.length = i * chunk + prevB → prevB ≤ chunk →
      (∀ o ∈ os, (blockOf o).length ≤ chunk) →
      os.length * chunk ≤ prevB + rest.length →
      injectLoop chunk i os (done ++ rest) = done ++ decompAux chunk os prevB rest := by
  intro os
  induction os with
  | nil => intro i done rest prevB _ _ _ _; rfl
  | cons o os ih =>
    intro i done rest prevB h1 h2 h3 h4
    rw [injectLoop, insertAt]
    have hg : chunk - prevB ≤ rest.length := by
      have := h4
      simp only [List.length_cons] at this
      have hc : chunk ≤ prevB + rest.length := by
        calc chunk ≤ (os.length + 1) * chunk := by
              have := Nat.le_mul_of_pos_left chunk (show 0 < os.length + 1 by omega)
              omega
          _ ≤ prevB + rest.length := this
      omega
    have hp : (i + 1) * chunk = done.length + (chunk - prevB) := by
      rw [h1]
      have : i * chunk + chunk = (i + 1) * chunk := by ring
      omega
    rw [hp, List.take_append, List.drop_append]
    have hassoc : done ++ List.take (chunk - prevB) rest ++ blockOf o ++
        List.drop (chunk - prevB) rest =
        (done ++ List.take (chunk - prevB) rest ++ blockOf o) ++
          List.drop (chunk - prevB) rest := by
      simp [List.append_assoc]
    rw [hassoc]
    rw [ih (i + 1) (done ++ List.take (chunk - prevB) rest ++ blockOf o)
      (List.drop (chunk - prevB) rest) (blockOf o).length
      (by
        simp only [List.length_append, List.length_take]
        have hmin : min (chunk - prevB) rest.length = chunk - prevB :=
          Nat.min_eq_left hg
        rw [hmin, h1]
        have : (i + 1) * chunk = i * chunk + chunk := by ring
        omega)
      (h3 o (by simp))
      (fun x hx => h3 x (by simp [hx]))
      (by
        simp only [List.length_drop]
        simp only [List.length_cons] at h4
        have : (os.length + 1) * chunk = os.length * chunk + chunk := by ring
        omega)]
    simp [List.append_assoc, decompAux]

theorem injectContent_decomp (c : Str) (origs : List Str)
    (h : ∀ o ∈ origs, (blockOf o).length ≤ c.length / (origs.length + 1)) :
    injectContent c origs =
      decompAux (c.length / (origs.length + 1)) origs 0 c := by
  have hq : (c.length / (origs.length + 1)) * (origs.length + 1) ≤ c.length :=
    Nat.div_mul_le_self _ _
  have h5 : (c.length / (origs.length + 1)) * (origs.length + 1) =
      origs.length * (c.length / (origs.length + 1)) + (c.length / (origs.length + 1)) := by
    ring
  rw [h5] at hq
  have h4 : origs.length * (c.length / (origs.length + 1)) ≤ 0 + c.length :=
    calc origs.length * (c.length / (origs.length + 1))
        ≤ origs.length * (c.length / (origs.length + 1)) +
            (c.length / (origs.length + 1)) := Nat.le_add_right _ _
      _ ≤ c.length := hq
      _ = 0 + c.length := (Nat.zero_add _).symm
  have := injectLoop_decomp (c.length / (origs.length + 1)) origs 0 [] c 0
    (by simp) (Nat.zero_le _) h h4
  simpa [injectContent] using this

/-! ### Counting over the decomposition -/

theorem countOcc_start_decomp (chunk : Nat) (i : Nat) :
    ∀ (js : List Nat) (prevB : Nat) (rest : Str), (∀ c ∈ rest, c ≠ '<') →
      countOcc (startDelim i) (decompAux chunk (js.map originalText) prevB rest) =
        js.count i := by
  intro js
  induction js with
  | nil =>
    intro prevB rest h
    rw [List.map_nil, decompAux, startDelim_cons i]
    rw [countOcc_free _ _ h]
    rfl
  | cons j js ih =>
    intro prevB rest h
    rw [List.map_cons, decompAux]
    rw [List.append_assoc]
    rw [startDelim_cons i]
    rw [countOcc_append_left_free _ _ _
      (fun x hx => h x (List.mem_of_mem_take hx))]
    rw [← startDelim_cons i]
    rw [countOcc_start_block]
    rw [ih (blockOf (originalText j)).length (rest.drop (chunk - prevB))
      (fun x hx => h x (List.mem_of_mem_drop hx))]
    rw [List.count_cons]
    by_cases hij : i = j
    · subst hij
      simp [Nat.add_comm]
    · have hbe : (j == i) = false := by
        simp
        exact fun he => hij he.symm
      rw [if_neg hij, hbe]
      simp

theorem pattern_origs (n : Nat) :
    ((createEditPattern n).replacements.map (fun r => r.original)) =
      (List.range n).map originalText := by
  simp [createEditPattern, List.map_map]

theorem injectContent_pattern_decomp (content : Str) (n : Nat)
    (hchunk : ∀ i < n, (blockOf (originalText i)).length ≤ content.length / (n + 1)) :
    injectContent content ((createEditPattern n).replacements.map (fun r => r.original)) =
      decompAux (content.length / (n + 1)) ((List.range n).map originalText) 0 content := by
  rw [pattern_origs, injectContent_decomp]
  · simp only [List.length_map, List.length_range]
  · intro o ho
    simp only [List.mem_map, List.mem_range] at ho
    obtain ⟨i, hi, rfl⟩ := ho
    simp only [List.length_map, List.length_range]
    exact hchunk i hi

theorem countOcc_end_decomp (chunk : Nat) (i : Nat) :
    ∀ (js : List Nat) (prevB : Nat) (rest : Str), (∀ c ∈ rest, c ≠ '<') →
      countOcc (endDelim i) (decompAux chunk (js.map originalText) prevB rest) =
        js.count i := by
  intro js
  induction js with
  | nil =>
    intro prevB rest h
    rw [List.map_nil, decompAux, endDelim_cons i]
    rw [countOcc_free _ _ h]
    rfl
  | cons j js ih =>
    intro prevB rest h
    rw [List.map_cons, decompAux]
    rw [List.append_assoc]
    rw [endDelim_cons i]
    rw [countOcc_append_left_free _ _ _
      (fun x hx => h x (List.mem_of_mem_take hx))]
    rw [← endDelim_cons i]
    rw [countOcc_end_block]
    rw [ih (blockOf (originalText j)).length (rest.drop (chunk - prevB))
      (fun x hx => h x (List.mem_of_mem_drop hx))]
    rw [List.count_cons]
    by_cases hij : i = j
    · subst hij
      simp [Nat.add_comm]
    · have hbe : (j == i) = false := by
        simp
        exact fun he => hij he.symm
      rw [if_neg hij, hbe]
      simp

set_option maxRecDepth 1000000 in
/-- C1: counterexample — content of length 9 with the 2-edit pattern gives
`chunk_size = 3`, the second insertion lands inside the first block's START
delimiter, and the written file holds only 1 START delimiter occurrence
although the recorded `numEdits` is 2. -/
theorem claim_C1_counterexample :
    (injectOne (List.replicate 9 'a') (strOf "f.md") 1 (createEditPattern 2)
        (strOf "out")).1.numEdits = 2 ∧
    countStarts 2 ((injectOne (List.replicate 9 'a') (strOf "f.md") 1 (createEditPattern 2)
        (strOf "out")).2.2) = 1 := by
  constructor
  · decide
  · decide

/-- C1 (amended): the recorded `numEdits` always equals `n`; and provided
the pristine content contains no `<` character (true of all generator
output) and `chunkSize` is at least the length of every inserted block (so
no insertion lands inside an earlier block), the written output contains
each of the `n` START delimiters and each of the `n` END delimiters
exactly once — `n` occurrences of each delimiter kind in total. -/
theorem claim_C1_amended (content : Str) (n : Nat) (fname : Str) (size : Int)
    (outputDir : Str)
    (hfree : ∀ c ∈ content, c ≠ '<')
    (hchunk : ∀ i < n, (blockOf (originalText i)).length ≤ content.length / (n + 1)) :
    (injectOne content fname size (createEditPattern n) outputDir).1.numEdits = n ∧
    (∀ i < n,
      countOcc (startDelim i)
          (injectOne content fname size (createEditPattern n) outputDir).2.2 = 1 ∧
      countOcc (endDelim i)
          (injectOne content fname size (createEditPattern n) outputDir).2.2 = 1) ∧
    countStarts n (injectOne content fname size (createEditPattern n) outputDir).2.2 = n ∧
    countEnds n (injectOne content fname size (createEditPattern n) outputDir).2.2 = n := by
  have hmod : (injectOne content fname size (createEditPattern n) outputDir).2.2 =
      decompAux (content.length / (n + 1)) ((List.range n).map originalText) 0 content := by
    show injectContent content ((createEditPattern n).replacements.map (fun r => r.original)) = _
    exact injectContent_pattern_decomp content n hchunk
  refine ⟨?_, ?_, ?_, ?_⟩
  · show (createEditPattern n).replacements.length = n
    simp [createEditPattern]
  · intro i hi
    rw [hmod]
    constructor
    · rw [countOcc_start_decomp _ _ _ _ _ hfree]
      exact List.count_eq_one_of_mem (List.nodup_range n) (List.mem_range.mpr hi)
    · rw [countOcc_end_decomp _ _ _ _ _ hfree]
      exact List.count_eq_one_of_mem (List.nodup_range n) (List.mem_range.mpr hi)
  · rw [countStarts, hmod]
    have hmap : (List.range n).map (fun i => countOcc (startDelim i)
        (decompAux (content.length / (n + 1)) ((List.range n).map originalText) 0 content)) =
        (List.range n).map (fun _ => 1) :=
      List.map_congr_left (fun i hi => by
        rw [countOcc_start_decomp _ _ _ _ _ hfree]
        exact List.count_eq_one_of_mem (List.nodup_range n) hi)
    rw [hmap]
    simp [List.map_const', List.sum_replicate]
  · rw [countEnds, hmod]
    have hmap : (List.range n).map (fun i => countOcc (endDelim i)
        (decompAux (content.length / (n + 1)) ((List.range n).map originalText) 0 content)) =
        (List.range n).map (fun _ => 1) :=
      List.map_congr_left (fun i hi => by
        rw [countOcc_end_decomp _ _ _ _ _ hfree]
        exact List.count_eq_one_of_mem (List.nodup_range n) hi)
    rw [hmap]
    simp [List.map_const', List.sum_replicate]

set_option maxRecDepth 1000000 in
/-- Witness for the amended C1 at 400 `a` characters and one edit
(`chunkSize = 200`, block length 83). -/
theorem claim_C1_witness :
    (∀ c ∈ List.replicate 400 'a', c ≠ '<') ∧
    (∀ i < 1, (blockOf (originalText i)).length ≤ (List.replicate 400 'a').length / (1 + 1)) ∧
    ((injectOne (List.replicate 400 'a') (strOf "f.md") 1 (createEditPattern 1)
        (strOf "out")).1.numEdits = 1 ∧
     (∀ i < 1,
       countOcc (startDelim i)
           (injectOne (List.replicate 400 'a') (strOf "f.md") 1 (createEditPattern 1)
             (strOf "out")).2.2 = 1 ∧
       countOcc (endDelim i)
           (injectOne (List.replicate 400 'a') (strOf "f.md") 1 (createEditPattern 1)
             (strOf "out")).2.2 = 1) ∧
     countStarts 1 (injectOne (List.replicate 400 'a') (strOf "f.md") 1 (createEditPattern 1)
         (strOf "out")).2.2 = 1 ∧
     countEnds 1 (injectOne (List.replicate 400 'a') (strOf "f.md") 1 (createEditPattern 1)
         (strOf "out")).2.2 = 1) :=
  ⟨by decide, by decide,
    claim_C1_amended (List.replicate 400 'a') 1 (strOf "f.md") 1 (strOf "out")
      (by decide) (by decide)⟩

/-! ### Regex-removal lemmas for C2 -/

theorem reSubAux_congr (sp ep : Str) :
    ∀ (f : Nat) (s : Str) (g : Nat), s.length < f → s.length < g →
      reSubAux sp ep f s = reSubAux sp ep g s := by
  intro f
  induction f with
  | zero => intro s g hf _; exact absurd hf (Nat.not_lt_zero _)
  | succ f ih =>
    intro s g hf hg
    match s, g with
    | [], g =>
      cases g with
      | zero => exact absurd hg (by omega)
      | succ g => rfl
    | c :: t, g =>
      cases g with
      | zero => exact absurd hg (by omega)
      | succ g =>
        simp only [reSubAux]
        by_cases hcond : (sp.isPrefixOf (c :: t) && !(List.isEmpty sp)) = true
        · rw [if_pos hcond, if_pos hcond]
          have hsp : 1 ≤ sp.length := by
            rcases sp with _ | ⟨x, xs⟩
            · simp [List.isEmpty] at hcond
            · simp
          rcases hfo : firstOcc ep ((c :: t).drop sp.length) with _ | k
          · simp only [hfo]
            simp only [List.length_cons] at hf hg
            rw [ih t g (by omega) (by omega)]
          · simp only [hfo]
            have hlen : (((c :: t).drop sp.length).drop (k + ep.length)).length ≤ t.length := by
              simp only [List.length_drop, List.length_cons]
              omega
            simp only [List.length_cons] at hf hg
            exact ih _ g (by omega) (by omega)
        · rw [if_neg hcond, if_neg hcond]
          simp only [List.length_cons] at hf hg
          rw [ih t g (by omega) (by omega)]

theorem reSub_cons (sp ep : Str) (c : Char) (t : Str) :
    reSub sp ep (c :: t) =
      if (sp.isPrefixOf (c :: t) && !(List.isEmpty sp)) = true then
        (match firstOcc ep ((c :: t).drop sp.length) with
          | some k => reSub sp ep (((c :: t).drop sp.length).drop (k + ep.length))
          | none => c :: reSub sp ep t)
      else c :: reSub sp ep t := by
  show reSubAux sp ep ((c :: t).length + 1) (c :: t) = _
  rw [show (c :: t).length + 1 = t.length + 1 + 1 from by simp]
  simp only [reSubAux]
  by_cases hcond : (sp.isPrefixOf (c :: t) && !(List.isEmpty sp)) = true
  · rw [if_pos hcond, if_pos hcond]
    have hsp : 1 ≤ sp.length := by
      rcases sp with _ | ⟨x, xs⟩
      · simp [List.isEmpty] at hcond
      · simp
    rcases hfo : firstOcc ep ((c :: t).drop sp.length) with _ | k
    · simp only [hfo]
      rfl
    · simp only [hfo]
      apply reSubAux_congr
      · simp only [List.length_drop, List.length_cons]
        omega
      · exact Nat.lt_succ_self _
  · rw [if_neg hcond, if_neg hcond]
    rfl

theorem reSub_through_free (a b : Char) (spT ep : Str) :
    ∀ (pre X : Str), (∀ c ∈ pre, c ≠ '<') →
      reSub (a :: b :: '<' :: spT) ep (pre ++ '\n' :: '\n' :: X) =
        pre ++ reSub (a :: b :: '<' :: spT) ep ('\n' :: '\n' :: X) := by
  intro pre
  induction pre with
  | nil => intro X _; rfl
  | cons c p ih =>
    intro X h
    rw [List.cons_append, reSub_cons]
    have hnp : ¬ ((a :: b :: '<' :: spT) <+: (c :: (p ++ '\n' :: '\n' :: X))) := by
      intro hp
      obtain ⟨_, hp1⟩ := List.cons_prefix_cons.mp hp
      rcases p with _ | ⟨d, p2⟩
      · simp only [List.nil_append] at hp1
        obtain ⟨_, hp2⟩ := List.cons_prefix_cons.mp hp1
        obtain ⟨he, _⟩ := List.cons_prefix_cons.mp hp2
        exact absurd he (by decide)
      · rw [List.cons_append] at hp1
        obtain ⟨_, hp2⟩ := List.cons_prefix_cons.mp hp1
        rcases p2 with _ | ⟨e, p3⟩
        · simp only [List.nil_append] at hp2
          obtain ⟨he, _⟩ := List.cons_prefix_cons.mp hp2
          exact absurd he (by decide)
        · rw [List.cons_append] at hp2
          obtain ⟨he, _⟩ := List.cons_prefix_cons.mp hp2
          exact (h e (by simp)) he.symm
    have hb : (a :: b :: '<' :: spT).isPrefixOf (c :: (p ++ '\n' :: '\n' :: X)) = false :=
      Bool.eq_false_iff.mpr (fun ht => hnp (List.isPrefixOf_iff_prefix.mp ht))
    rw [hb, if_neg (by simp)]
    rw [ih X (fun x hx => h x (by simp [hx]))]
    rfl

theorem firstOcc_at_boundary (epT : Str) :
    ∀ (mid suf : Str), (∀ c ∈ mid, c ≠ '<') →
      firstOcc ('<' :: epT) (mid ++ (('<' :: epT) ++ suf)) = some mid.length := by
  intro mid
  induction mid with
  | nil =>
    intro suf _
    rw [List.nil_append, List.cons_append, firstOcc]
    have hb : ('<' :: epT).isPrefixOf ('<' :: (epT ++ suf)) = true :=
      List.isPrefixOf_iff_prefix.mpr (List.prefix_append ('<' :: epT) suf)
    rw [if_pos hb]
    rfl
  | cons c m ih =>
    intro suf h
    have hsplit : (c :: m) ++ (('<' :: epT) ++ suf) = c :: (m ++ (('<' :: epT) ++ suf)) := rfl
    rw [hsplit, firstOcc]
    have hb : ('<' :: epT).isPrefixOf (c :: (m ++ (('<' :: epT) ++ suf))) = false :=
      Bool.eq_false_iff.mpr (fun ht =>
        (h c (by simp))
          ((List.cons_prefix_cons.mp (List.isPrefixOf_iff_prefix.mp ht)).1.symm))
    rw [hb, if_neg (by simp)]
    rw [ih suf (fun x hx => h x (by simp [hx]))]
    rfl

theorem reSub_removes_unit (sp epT mid suf : Str)
    (hsp : sp ≠ []) (hmid : ∀ c ∈ mid, c ≠ '<') :
    reSub sp ('<' :: epT) (sp ++ (mid ++ (('<' :: epT) ++ suf))) =
      reSub sp ('<' :: epT) suf := by
  rcases sp with _ | ⟨c, spT⟩
  · exact absurd rfl hsp
  · rw [List.cons_append, reSub_cons]
    have hb : ((c :: spT).isPrefixOf
        (c :: (spT ++ (mid ++ (('<' :: epT) ++ suf))))) = true := by
      apply List.isPrefixOf_iff_prefix.mpr
      exact List.prefix_append (c :: spT) (mid ++ (('<' :: epT) ++ suf))
    rw [if_pos (by simp [hb, List.isEmpty])]
    have hdrop : (c :: (spT ++ (mid ++ (('<' :: epT) ++ suf)))).drop (c :: spT).length =
        mid ++ (('<' :: epT) ++ suf) := by
      rw [List.length_cons, List.drop_succ_cons]
      exact List.drop_left spT _
    rw [hdrop]
    rw [firstOcc_at_boundary epT mid suf hmid]
    have hdrop2 : (mid ++ (('<' :: epT) ++ suf)).drop (mid.length + ('<' :: epT).length) =
        suf := by
      rw [← List.drop_drop, List.drop_left, List.drop_left]
    dsimp only
    rw [hdrop2]

theorem reSub_no_occ (sp ep : Str) : ∀ s, countOcc sp s = 0 → reSub sp ep s = s := by
  intro s
  induction s with
  | nil => intro _; rfl
  | cons c t ih =>
    intro h
    rw [countOcc] at h
    have hb : sp.isPrefixOf (c :: t) = false := by
      by_cases hx : sp.isPrefixOf (c :: t) = true
      · rw [hx] at h
        simp at h
      · exact Bool.eq_false_iff.mpr hx
    have ht : countOcc sp t = 0 := by
      rw [hb] at h
      simpa using h
    rw [reSub_cons, if_neg (by simp [hb])]
    rw [ih ht]

theorem stripFold_decomp (chunk : Nat) :
    ∀ (js : List Nat) (pre rest : Str) (prevB : Nat),
      (∀ c ∈ pre, c ≠ '<') → (∀ c ∈ rest, c ≠ '<') → js.Nodup →
      js.foldl (fun acc j => removeMarkerModule j acc)
          (pre ++ decompAux chunk (js.map originalText) prevB rest) = pre ++ rest := by
  intro js
  induction js with
  | nil => intro pre rest prevB _ _ _; rfl
  | cons j js ih =>
    intro pre rest prevB hpre hrest hnd
    obtain ⟨hj, hnds⟩ := List.nodup_cons.mp hnd
    rw [List.map_cons, decompAux, List.foldl_cons]
    have hD := decompAux chunk (js.map originalText) (blockOf (originalText j)).length
      (rest.drop (chunk - prevB))
    have hshape : pre ++ (List.take (chunk - prevB) rest ++ blockOf (originalText j) ++
        decompAux chunk (js.map originalText) (blockOf (originalText j)).length
          (rest.drop (chunk - prevB))) =
        (pre ++ List.take (chunk - prevB) rest) ++
          ('\n' :: '\n' :: (originalText j ++ ('\n' :: '\n' ::
            decompAux chunk (js.map originalText) (blockOf (originalText j)).length
              (rest.drop (chunk - prevB))))) := by
      rw [blockOf]
      simp only [List.append_assoc]
      rfl
    rw [hshape]
    rw [removeMarkerModule]
    have hthrough : reSub (strOf "\n\n" ++ startDelim j) (endDelim j ++ strOf "\n\n")
        ((pre ++ List.take (chunk - prevB) rest) ++ ('\n' :: '\n' ::
          (originalText j ++ ('\n' :: '\n' ::
            decompAux chunk (js.map originalText) (blockOf (originalText j)).length
              (rest.drop (chunk - prevB)))))) =
        (pre ++ List.take (chunk - prevB) rest) ++
          reSub (strOf "\n\n" ++ startDelim j) (endDelim j ++ strOf "\n\n")
            ('\n' :: '\n' :: (originalText j ++ ('\n' :: '\n' ::
              decompAux chunk (js.map originalText) (blockOf (originalText j)).length
                (rest.drop (chunk - prevB))))) :=
      reSub_through_free '\n' '\n' (startTail j) (endDelim j ++ strOf "\n\n")
        (pre ++ List.take (chunk - prevB) rest)
        (originalText j ++ ('\n' :: '\n' ::
          decompAux chunk (js.map originalText) (blockOf (originalText j)).length
            (rest.drop (chunk - prevB))))
        (fun x hx => by
          rcases List.mem_append.mp hx with hx | hx
          · exact hpre x hx
          · exact hrest x (List.mem_of_mem_take hx))
    rw [hthrough]
    have heq : ('\n' :: '\n' :: (originalText j ++ ('\n' :: '\n' ::
        decompAux chunk (js.map originalText) (blockOf (originalText j)).length
          (rest.drop (chunk - prevB))))) =
        (strOf "\n\n" ++ startDelim j) ++ (midText j ++ ((endDelim j ++ strOf "\n\n") ++
          decompAux chunk (js.map originalText) (blockOf (originalText j)).length
            (rest.drop (chunk - prevB)))) := by
      rw [originalText_decomp]
      simp only [List.append_assoc]
      rfl
    rw [heq]
    have hremove : reSub (strOf "\n\n" ++ startDelim j) (endDelim j ++ strOf "\n\n")
        ((strOf "\n\n" ++ startDelim j) ++ (midText j ++ ((endDelim j ++ strOf "\n\n") ++
          decompAux chunk (js.map originalText) (blockOf (originalText j)).length
            (rest.drop (chunk - prevB))))) =
        reSub (strOf "\n\n" ++ startDelim j) (endDelim j ++ strOf "\n\n")
          (decompAux chunk (js.map originalText) (blockOf (originalText j)).length
            (rest.drop (chunk - prevB))) :=
      reSub_removes_unit (strOf "\n\n" ++ startDelim j) (endTail j ++ strOf "\n\n")
        (midText j)
        (decompAux chunk (js.map originalText) (blockOf (originalText j)).length
          (rest.drop (chunk - prevB)))
        (List.cons_ne_nil _ _) (noLt_midText j)
    rw [hremove]
    have hzero : countOcc (strOf "\n\n" ++ startDelim j)
        (decompAux chunk (js.map originalText) (blockOf (originalText j)).length
          (rest.drop (chunk - prevB))) = 0 := by
      apply countOcc_append_needle_zero (startDelim_ne_nil j)
      rw [countOcc_start_decomp chunk j js (blockOf (originalText j)).length
        (rest.drop (chunk - prevB)) (fun x hx => hrest x (List.mem_of_mem_drop hx))]
      exact List.count_eq_zero.mpr hj
    rw [reSub_no_occ _ _ _ hzero]
    rw [ih (pre ++ List.take (chunk - prevB) rest) (rest.drop (chunk - prevB)) _
      (fun x hx => by
        rcases List.mem_append.mp hx with hx | hx
        · exact hpre x hx
        · exact hrest x (List.mem_of_mem_take hx))
      (fun x hx => hrest x (List.mem_of_mem_drop hx)) hnds]
    rw [List.append_assoc, List.take_append_drop]

set_option maxRecDepth 1000000 in
/-- C2: counterexample — on a 9-character pristine content with the 2-edit
pattern, the second insertion splits the first block, the
`\n\n<START>..<END>\n\n` span of marker 0 is no longer present as a
contiguous unit, and removing every located span does not reconstruct the
pristine content. -/
theorem claim_C2_counterexample :
    ¬ (stripInsertedBlocks 2
        (injectContent (List.replicate 9 'a')
          ((createEditPattern 2).replacements.map (fun r => r.original))) =
      List.replicate 9 'a') := by
  decide

/-- C2 (amended): provided the pristine content contains no `<` character
and `chunkSize` is at least the length of every inserted block, removing
every inserted `\n\n<START>..<END>\n\n` span from the injector output
reconstructs the pristine content exactly (any `n >= 0`). -/
theorem claim_C2_amended (content : Str) (n : Nat)
    (hfree : ∀ c ∈ content, c ≠ '<')
    (hchunk : ∀ i < n, (blockOf (originalText i)).length ≤ content.length / (n + 1)) :
    stripInsertedBlocks n
        (injectContent content ((createEditPattern n).replacements.map (fun r => r.original))) =
      content := by
  rw [injectContent_pattern_decomp content n hchunk]
  rw [stripInsertedBlocks]
  have := stripFold_decomp (content.length / (n + 1)) (List.range n) [] content 0
    (by simp) hfree (List.nodup_range n)
  simpa using this

set_option maxRecDepth 1000000 in
/-- Witness for the amended C2 at 600 `a` characters and the 2-edit
pattern (`chunkSize = 200`, block lengths 83). -/
theorem claim_C2_witness :
    (∀ c ∈ List.replicate 600 'a', c ≠ '<') ∧
    (∀ i < 2, (blockOf (originalText i)).length ≤ (List.replicate 600 'a').length / (2 + 1)) ∧
    stripInsertedBlocks 2
        (injectContent (List.replicate 600 'a')
          ((createEditPattern 2).replacements.map (fun r => r.original))) =
      List.replicate 600 'a' :=
  ⟨by decide, by decide,
    claim_C2_amended (List.replicate 600 'a') 2 (by decide) (by decide)⟩

end Chot
